import Mathlib

set_option maxHeartbeats 1000000

/-!
Shallow embedding of the Go reverse proxy in src/proxy/main.go (the
feature-complete variant with load-balancing strategies, the pause gate and
per-backend active-request counters).  Machine integers: the uint64
round-robin counter is a Nat kept below 2 ^ 64 by the modelled wrap-around,
and its conversion to a signed 64-bit int (Go int on a 64-bit platform) is
modelled explicitly; the int64 ActiveRequests counter is an Int.  Fallible
externals (the upstream round trip, the process kill, the spawn, the build,
the strategy file) enter as oracle parameters.
-/

/-- Load-balancing strategy; the source represents it as the strings
round_robin and least_connections. -/
inductive LoadBalancingStrategy
  | round_robin
  | least_connections
deriving DecidableEq

/-- One backend entry, from the Go struct Backend.  The URL field is dropped
(the modelled logic only forwards it); cmd is some () exactly when a command
with a non-nil Process is attached; lastSeen is an abstract timestamp;
activeRequests carries the value of the int64 counter - every update wraps
it into the int64 range through int64Wrap, exactly as atomic.AddInt64
does. -/
structure Backend where
  name : String
  healthy : Bool
  lastSeen : Nat
  cmd : Option Unit
  activeRequests : Int
deriving DecidableEq

/-- The process-wide mutable state: the backends slice, the round-robin
counter (uint64), the pause gate and the strategy. -/
structure ProxyState where
  backends : List Backend
  counter : Nat
  proxyActive : Bool
  strategy : LoadBalancingStrategy
deriving DecidableEq

/-- The Healthy flag of the backend at index i (false past the end). -/
def healthyAt (bs : List Backend) (i : Nat) : Bool :=
  match bs.get? i with
  | some b => b.healthy
  | none => false

/-- The ActiveRequests field of the backend at index i (0 past the end). -/
def activeAt (bs : List Backend) (i : Nat) : Int :=
  match bs.get? i with
  | some b => b.activeRequests
  | none => 0

/-- Indices of the healthy backends in configuration order: the healthy
slice built at the top of getNextHealthyBackend, as positions into the
backends slice. -/
def healthyIdx (bs : List Backend) : List Nat :=
  (List.range bs.length).filter (healthyAt bs)

/-- Replace the backend at index i by f of itself (a pointer update in Go). -/
def modifyAt : List Backend → Nat → (Backend → Backend) → List Backend
  | [], _, _ => []
  | b :: bs, 0, f => f b :: bs
  | b :: bs, n + 1, f => b :: modifyAt bs n f

/-- Reduction of an Int to the canonical int64 representative in
[-2 ^ 63, 2 ^ 63): two-complement wrap-around of 64-bit signed
arithmetic. -/
def int64Wrap (x : Int) : Int := (x + 2 ^ 63) % 2 ^ 64 - 2 ^ 63

/-- atomic.AddInt64(&b.ActiveRequests, 1) on the backend at index i: the
int64 addition wraps at 2 ^ 63 - 1. -/
def bumpAt (bs : List Backend) (i : Nat) : List Backend :=
  modifyAt bs i (fun b => { b with activeRequests := int64Wrap (b.activeRequests + 1) })

/-- atomic.AddInt64(&b.ActiveRequests, -1) on the backend at index i: the
int64 subtraction wraps at -2 ^ 63. -/
def dropAt (bs : List Backend) (i : Nat) : List Backend :=
  modifyAt bs i (fun b => { b with activeRequests := int64Wrap (b.activeRequests - 1) })

/-- One iteration of the least-connections scan, from the source line
if minActive == -1 or active < minActive, then best, minActive = b, active. -/
def lcStep (bs : List Backend) (acc : Option Nat × Int) (i : Nat) : Option Nat × Int :=
  if acc.2 = -1 ∨ activeAt bs i < acc.2 then (some i, activeAt bs i) else acc

/-- The least-connections scan over the healthy slice, started from
best = nil and minActive = -1. -/
def lcSelect (bs : List Backend) : Option Nat :=
  ((healthyIdx bs).foldl (lcStep bs) (none, -1)).1

/-- 2 ^ 64, the modulus of the uint64 counter. -/
def UINT64SIZE : Nat := 2 ^ 64

/-- atomic.AddUint64(&counter, 1): wrap-around increment. -/
def rrAdvance (c : Nat) : Nat := (c + 1) % UINT64SIZE

/-- Conversion of a uint64 value to a Go int (64-bit two-complement
reinterpretation). -/
def toInt64 (n : Nat) : Int :=
  if n < 2 ^ 63 then (n : Int) else (n : Int) - (2 ^ 64 : Int)

/-- int(counterValue) modulo k with Go remainder semantics (truncated
division, remainder takes the sign of the dividend). -/
def rrIndex (c : Nat) (k : Nat) : Int := Int.tmod (toInt64 c) (k : Int)

/-- Result of getNextHealthyBackend: nil, a selected position in the
backends slice, or the run-time fault raised by indexing the healthy slice
with a negative index. -/
inductive SelResult
  | noBackend
  | outOfRange
  | selected (i : Nat)
deriving DecidableEq

/-- getNextHealthyBackend: build the healthy slice and return nil when it is
empty; under least_connections scan for the minimum and increment the
winner; otherwise advance the round-robin counter and index the healthy
slice, incrementing the chosen backend. -/
def getNextHealthyBackend (s : ProxyState) : SelResult × ProxyState :=
  let idxs := healthyIdx s.backends
  if idxs.isEmpty then (.noBackend, s)
  else if s.strategy = .least_connections then
    match lcSelect s.backends with
    | none => (.noBackend, s)
    | some i => (.selected i, { s with backends := bumpAt s.backends i })
  else
    let c := rrAdvance s.counter
    let idx := rrIndex c idxs.length
    match (if 0 ≤ idx then idxs.get? idx.toNat else none) with
    | none => (.outOfRange, { s with counter := c })
    | some i => (.selected i, { s with counter := c, backends := bumpAt s.backends i })

/-- Outcome of one proxied request as seen by the client. -/
inductive HandleOutcome
  | serviceUnavailable
  | badGateway
  | ok
  | crashed
deriving DecidableEq

/-- handleRequest: pause-gate check, selection, forward (the outcome of the
upstream round trip is the oracle upstreamOk) and the deferred decrement of
the selected backend.  In the crashed case the fault happens inside
getNextHealthyBackend, before the increment and before the deferred
decrement is registered, so no counter moves. -/
def handleRequest (s : ProxyState) (upstreamOk : Bool) : HandleOutcome × ProxyState :=
  if ¬ s.proxyActive then (.serviceUnavailable, s)
  else
    match getNextHealthyBackend s with
    | (.noBackend, s1) => (.serviceUnavailable, s1)
    | (.outOfRange, s1) => (.crashed, s1)
    | (.selected i, s1) =>
      let s2 := { s1 with backends := dropAt s1.backends i }
      if upstreamOk then (.ok, s2) else (.badGateway, s2)

/-- A sequence of requests, one upstream oracle outcome per request. -/
def runRequests : ProxyState → List Bool → List HandleOutcome × ProxyState
  | s, [] => ([], s)
  | s, u :: us =>
    let (o, s1) := handleRequest s u
    let (os, s2) := runRequests s1 us
    (o :: os, s2)

/-- handleProxyPause: store false in the gate, touch nothing else. -/
def handleProxyPause (s : ProxyState) : ProxyState := { s with proxyActive := false }

/-- handleProxyResume: store true in the gate, touch nothing else. -/
def handleProxyResume (s : ProxyState) : ProxyState := { s with proxyActive := true }

/-- n consecutive calls of getNextHealthyBackend, collecting the selected
positions (a call that selects nobody contributes nothing to the list). -/
def selRun : ProxyState → Nat → List Nat × ProxyState
  | s, 0 => ([], s)
  | s, n + 1 =>
    let (r, s1) := getNextHealthyBackend s
    let (rest, s2) := selRun s1 n
    match r with
    | .selected i => (i :: rest, s2)
    | _ => (rest, s2)

/-- Outcome of handleStopBackend as seen by the caller. -/
inductive StopResult
  | badRequest
  | stopped
  | internalError
  | notFound
deriving DecidableEq

/-- The loop of handleStopBackend: the first backend whose name matches and
whose process handle is attached is killed (kill outcome from the oracle
killOk); a name match without an attached handle falls through and the scan
continues; on success only Healthy is cleared - Cmd is left as it was. -/
def stopLoop : List Backend → String → Bool → StopResult × List Backend
  | [], _, _ => (.notFound, [])
  | b :: bs, nm, killOk =>
    if b.name = nm ∧ b.cmd.isSome then
      if killOk then (.stopped, { b with healthy := false } :: bs)
      else (.internalError, b :: bs)
    else
      let (r, bs1) := stopLoop bs nm killOk
      (r, b :: bs1)

/-- handleStopBackend with the request query parameter and the kill oracle. -/
def handleStopBackend (s : ProxyState) (nm : String) (killOk : Bool) :
    StopResult × ProxyState :=
  if nm = "" then (.badRequest, s)
  else
    let (r, bs1) := stopLoop s.backends nm killOk
    (r, { s with backends := bs1 })

/-- The environment startBackend runs in: whether ../backend/backend.exe
exists, whether go build succeeds, whether cmd.Start succeeds. -/
structure StartEnv where
  binaryExists : Bool
  buildOk : Bool
  spawnOk : Bool
deriving DecidableEq

/-- Outcome of startBackend.  fatalExit models log.Fatalf, which terminates
the whole proxy process with a non-zero status. -/
inductive StartOutcome
  | fatalExit
  | spawnFailed
  | started
deriving DecidableEq

/-- startBackend: when the binary is missing it is built first, and a build
failure calls log.Fatalf - the whole proxy process exits (outcome fatalExit,
backend returned unchanged for inspection); a spawn failure is logged and
returns with Cmd untouched; success attaches the handle. -/
def startBackend (b : Backend) (env : StartEnv) : StartOutcome × Backend :=
  if env.binaryExists = false ∧ env.buildOk = false then (.fatalExit, b)
  else if env.spawnOk = false then (.spawnFailed, b)
  else (.started, { b with cmd := some () })

/-- One probe of the health monitor for one backend: the oracle connectOk is
the outcome of the bounded-timeout dial, now the probe time; the returned
Bool says whether a transition was logged. -/
def healthMonitorStep (b : Backend) (connectOk : Bool) (now : Nat) : Backend × Bool :=
  if connectOk then ({ b with healthy := true, lastSeen := now }, !b.healthy)
  else ({ b with healthy := false }, b.healthy)

/-- What reading the strategy file yields: an open error, a JSON decode
error, or a decoded strategy string. -/
inductive LoadInput
  | openErr
  | decodeErr
  | value (str : String)
deriving DecidableEq

/-- loadStrategy: every failure path leaves the current strategy in place
and returns normally; only the two recognized strings change it. -/
def loadStrategy (cur : LoadBalancingStrategy) (inp : LoadInput) : LoadBalancingStrategy :=
  match inp with
  | .openErr => cur
  | .decodeErr => cur
  | .value str =>
    if str = "round_robin" then .round_robin
    else if str = "least_connections" then .least_connections
    else cur

/-- Concrete backend used to instantiate theorems: healthy, with handle. -/
def bA : Backend := ⟨"a", true, 0, some (), 0⟩

/-- Concrete backend used to instantiate theorems: healthy, with handle. -/
def bB : Backend := ⟨"b", true, 0, some (), 0⟩

/-- Concrete backend with no handle and healthy false. -/
def bPlain : Backend := ⟨"a", false, 0, none, 0⟩

/-- Two healthy backends, paused gate, round_robin. -/
def sPaused : ProxyState := ⟨[bA, bB], 0, false, .round_robin⟩

/-- One healthy backend under least_connections. -/
def sLC1 : ProxyState := ⟨[bA], 0, true, .least_connections⟩

/-- Three healthy backends with a tie for least active requests. -/
def sLC3 : ProxyState :=
  ⟨[⟨"a", true, 0, none, 2⟩, ⟨"b", true, 0, none, 1⟩, ⟨"c", true, 0, none, 1⟩], 0,
    true, .least_connections⟩

/-- Two healthy backends under round_robin, cursor at 0. -/
def sRR2 : ProxyState := ⟨[bA, bB], 0, true, .round_robin⟩

/-- No healthy backend. -/
def sNoHealthy : ProxyState := ⟨[⟨"a", false, 0, none, 0⟩], 0, true, .round_robin⟩

/-- Two healthy backends with the cursor one step before the int64 boundary. -/
def sOverflowA : ProxyState := ⟨[bA, bB], 2 ^ 63 - 1, true, .round_robin⟩

/-- Two healthy backends with the cursor at the int64 boundary. -/
def sOverflowB : ProxyState := ⟨[bA, bB], 2 ^ 63, true, .round_robin⟩

/-- One running backend, used for the stop operation. -/
def sStop : ProxyState := ⟨[bA], 0, true, .round_robin⟩

/-! ### Helper lemmas about the state operations -/

theorem length_modifyAt (bs : List Backend) (i : Nat) (f : Backend → Backend) :
    (modifyAt bs i f).length = bs.length := by
  induction bs generalizing i with
  | nil => rfl
  | cons b bs ih =>
    cases i with
    | zero => rfl
    | succ n => simp [modifyAt, ih]

theorem get?_modifyAt_self (bs : List Backend) (i : Nat) (f : Backend → Backend) :
    (modifyAt bs i f).get? i = (bs.get? i).map f := by
  induction bs generalizing i with
  | nil => cases i <;> rfl
  | cons b bs ih =>
    cases i with
    | zero => rfl
    | succ n => simpa [modifyAt] using ih n

theorem get?_modifyAt_ne (bs : List Backend) (i j : Nat) (f : Backend → Backend)
    (h : j ≠ i) : (modifyAt bs i f).get? j = bs.get? j := by
  induction bs generalizing i j with
  | nil => cases j <;> rfl
  | cons b bs ih =>
    cases i with
    | zero =>
      cases j with
      | zero => exact absurd rfl h
      | succ m => rfl
    | succ n =>
      cases j with
      | zero => rfl
      | succ m => simpa [modifyAt] using ih n m (by omega)

theorem healthyAt_modifyAt (bs : List Backend) (i j : Nat) (f : Backend → Backend)
    (hf : ∀ b, (f b).healthy = b.healthy) :
    healthyAt (modifyAt bs i f) j = healthyAt bs j := by
  by_cases h : j = i
  · subst h
    unfold healthyAt
    rw [get?_modifyAt_self]
    cases bs.get? j with
    | none => rfl
    | some b => simp [hf]
  · unfold healthyAt
    rw [get?_modifyAt_ne bs i j f h]

theorem healthyAt_bumpAt (bs : List Backend) (i j : Nat) :
    healthyAt (bumpAt bs i) j = healthyAt bs j :=
  healthyAt_modifyAt bs i j _ (fun _ => rfl)

theorem healthyAt_dropAt (bs : List Backend) (i j : Nat) :
    healthyAt (dropAt bs i) j = healthyAt bs j :=
  healthyAt_modifyAt bs i j _ (fun _ => rfl)

theorem healthyIdx_bumpAt (bs : List Backend) (i : Nat) :
    healthyIdx (bumpAt bs i) = healthyIdx bs := by
  unfold healthyIdx
  rw [show (bumpAt bs i).length = bs.length from length_modifyAt bs i _]
  exact List.filter_congr (fun a _ => healthyAt_bumpAt bs i a)

theorem healthyIdx_dropAt (bs : List Backend) (i : Nat) :
    healthyIdx (dropAt bs i) = healthyIdx bs := by
  unfold healthyIdx
  rw [show (dropAt bs i).length = bs.length from length_modifyAt bs i _]
  exact List.filter_congr (fun a _ => healthyAt_dropAt bs i a)

theorem int64Wrap_eq_self {x : Int} (h1 : -(2 ^ 63) ≤ x) (h2 : x < 2 ^ 63) :
    int64Wrap x = x := by
  unfold int64Wrap
  omega

theorem int64Wrap_add_sub {a : Int} (h1 : -(2 ^ 63) ≤ a) (h2 : a < 2 ^ 63) :
    int64Wrap (int64Wrap (a + 1) - 1) = a := by
  unfold int64Wrap
  omega

theorem activeAt_bumpAt_self (bs : List Backend) (i : Nat) (h : i < bs.length) :
    activeAt (bumpAt bs i) i = int64Wrap (activeAt bs i + 1) := by
  unfold activeAt bumpAt
  rw [get?_modifyAt_self]
  rw [List.get?_eq_get h]
  simp

theorem activeAt_drop_bump_self (bs : List Backend) (i : Nat)
    (h1 : -(2 ^ 63) ≤ activeAt bs i) (h2 : activeAt bs i < 2 ^ 63) :
    activeAt (dropAt (bumpAt bs i) i) i = activeAt bs i := by
  unfold activeAt dropAt bumpAt
  rw [get?_modifyAt_self, get?_modifyAt_self]
  cases hc : bs.get? i with
  | none => rfl
  | some b =>
    have he : activeAt bs i = b.activeRequests := by
      unfold activeAt
      rw [hc]
    rw [he] at h1 h2
    show int64Wrap (int64Wrap (b.activeRequests + 1) - 1) = b.activeRequests
    exact int64Wrap_add_sub h1 h2

theorem activeAt_drop_bump_ne (bs : List Backend) (i j : Nat) (h : j ≠ i) :
    activeAt (dropAt (bumpAt bs i) i) j = activeAt bs j := by
  unfold activeAt dropAt bumpAt
  rw [get?_modifyAt_ne _ _ _ _ h, get?_modifyAt_ne _ _ _ _ h]

theorem range_drop_bump (bs : List Backend) (i : Nat)
    (h : ∀ b ∈ bs, 0 ≤ b.activeRequests ∧ b.activeRequests < 2 ^ 63) :
    ∀ b ∈ dropAt (bumpAt bs i) i, 0 ≤ b.activeRequests ∧ b.activeRequests < 2 ^ 63 := by
  intro b hb
  obtain ⟨⟨j, hj⟩, hget⟩ := List.mem_iff_get.1 hb
  have hg : (dropAt (bumpAt bs i) i).get? j = some b := by
    rw [List.get?_eq_get hj, hget]
  by_cases hji : j = i
  · subst hji
    unfold dropAt bumpAt at hg
    rw [get?_modifyAt_self, get?_modifyAt_self] at hg
    cases hc : bs.get? j with
    | none => rw [hc] at hg; cases hg
    | some c =>
      rw [hc] at hg
      obtain ⟨hc1, hc2⟩ := h c (List.get?_mem hc)
      simp only [Option.map_some'] at hg
      injection hg with hb2
      have hval : b.activeRequests = c.activeRequests := by
        rw [← hb2]
        show int64Wrap (int64Wrap (c.activeRequests + 1) - 1) = c.activeRequests
        exact int64Wrap_add_sub (by omega) hc2
      rw [hval]
      exact ⟨hc1, hc2⟩
  · unfold dropAt bumpAt at hg
    rw [get?_modifyAt_ne _ _ _ _ hji, get?_modifyAt_ne _ _ _ _ hji] at hg
    exact h b (List.get?_mem hg)

theorem mem_healthyIdx {bs : List Backend} {i : Nat} :
    i ∈ healthyIdx bs ↔ healthyAt bs i = true := by
  unfold healthyIdx
  rw [List.mem_filter, List.mem_range]
  constructor
  · rintro ⟨_, h2⟩; exact h2
  · intro h2
    refine ⟨?_, h2⟩
    unfold healthyAt at h2
    by_contra hlen
    rw [List.get?_eq_none.mpr (by omega)] at h2
    cases h2

theorem mem_healthyIdx_lt {bs : List Backend} {i : Nat} (h : i ∈ healthyIdx bs) :
    i < bs.length :=
  List.mem_range.1 (List.mem_of_mem_filter h)

theorem healthyIdx_pairwise (bs : List Backend) :
    (healthyIdx bs).Pairwise (· < ·) :=
  (List.pairwise_lt_range _).filter _

theorem healthyIdx_nodup (bs : List Backend) : (healthyIdx bs).Nodup :=
  (healthyIdx_pairwise bs).imp Nat.ne_of_lt

/-! ### The least-connections scan -/

theorem lcFold_aux (bs : List Backend) :
    ∀ (l : List Nat) (q : Nat), 0 ≤ activeAt bs q → (∀ i ∈ l, 0 ≤ activeAt bs i) →
      (l.foldl (lcStep bs) (some q, activeAt bs q) = (some q, activeAt bs q) ∧
        ∀ i ∈ l, activeAt bs q ≤ activeAt bs i) ∨
      (∃ l1 r l2, l = l1 ++ r :: l2 ∧
        l.foldl (lcStep bs) (some q, activeAt bs q) = (some r, activeAt bs r) ∧
        activeAt bs r < activeAt bs q ∧
        (∀ i ∈ l1, activeAt bs r < activeAt bs i) ∧
        (∀ i ∈ l2, activeAt bs r ≤ activeAt bs i)) := by
  intro l
  induction l with
  | nil =>
    intro q _ _
    left
    exact ⟨rfl, by simp⟩
  | cons p t ih =>
    intro q hq hall
    have hpnn : 0 ≤ activeAt bs p := hall p (by simp)
    have htnn : ∀ i ∈ t, 0 ≤ activeAt bs i := fun i hi => hall i (by simp [hi])
    by_cases hlt : activeAt bs p < activeAt bs q
    · have hstep : lcStep bs (some q, activeAt bs q) p = (some p, activeAt bs p) :=
        if_pos (Or.inr hlt)

      rcases ih p hpnn htnn with ⟨hfold, hmin⟩ | ⟨t1, r, t2, hsplit, hfold, hrp, h1, h2⟩
      · right
        refine ⟨[], p, t, rfl, ?_, hlt, by simp, hmin⟩
        rw [List.foldl_cons, hstep, hfold]
      · right
        refine ⟨p :: t1, r, t2, by rw [hsplit]; rfl, ?_, lt_trans hrp hlt, ?_, h2⟩
        · rw [List.foldl_cons, hstep, hfold]
        · intro i hi
          rcases List.mem_cons.1 hi with rfl | hi
          · exact hrp
          · exact h1 i hi
    · have hne2 : ¬ activeAt bs q = -1 := by omega
      have hstep : lcStep bs (some q, activeAt bs q) p = (some q, activeAt bs q) := by
        unfold lcStep
        simp only []
        rw [if_neg (by push_neg; exact ⟨hne2, not_lt.1 hlt⟩)]
      rcases ih q hq htnn with ⟨hfold, hmin⟩ | ⟨t1, r, t2, hsplit, hfold, hrq, h1, h2⟩
      · left
        constructor
        · rw [List.foldl_cons, hstep, hfold]
        · intro i hi
          rcases List.mem_cons.1 hi with rfl | hi
          · exact not_lt.1 hlt
          · exact hmin i hi
      · right
        refine ⟨p :: t1, r, t2, by rw [hsplit]; rfl, ?_, hrq, ?_, h2⟩
        · rw [List.foldl_cons, hstep, hfold]
        · intro i hi
          rcases List.mem_cons.1 hi with rfl | hi
          · exact lt_of_lt_of_le hrq (not_lt.1 hlt)
          · exact h1 i hi

theorem lcFold_spec (bs : List Backend) (l : List Nat) (hl : l ≠ [])
    (hnn : ∀ i ∈ l, 0 ≤ activeAt bs i) :
    ∃ l1 r l2, l = l1 ++ r :: l2 ∧
      l.foldl (lcStep bs) (none, -1) = (some r, activeAt bs r) ∧
      (∀ i ∈ l1, activeAt bs r < activeAt bs i) ∧
      (∀ i ∈ l, activeAt bs r ≤ activeAt bs i) := by
  cases l with
  | nil => exact absurd rfl hl
  | cons q t =>
    have hq : 0 ≤ activeAt bs q := hnn q (by simp)
    have htnn : ∀ i ∈ t, 0 ≤ activeAt bs i := fun i hi => hnn i (by simp [hi])
    have hstep : lcStep bs (none, -1) q = (some q, activeAt bs q) := if_pos (Or.inl rfl)
    rcases lcFold_aux bs t q hq htnn with ⟨hfold, hmin⟩ | ⟨t1, r, t2, hsplit, hfold, hrq, h1, h2⟩
    · refine ⟨[], q, t, rfl, ?_, by simp, ?_⟩
      · rw [List.foldl_cons, hstep, hfold]
      · intro i hi
        rcases List.mem_cons.1 hi with rfl | hi
        · exact le_refl _
        · exact hmin i hi
    · refine ⟨q :: t1, r, t2, by rw [hsplit]; rfl, ?_, ?_, ?_⟩
      · rw [List.foldl_cons, hstep, hfold]
      · intro i hi
        rcases List.mem_cons.1 hi with rfl | hi
        · exact hrq
        · exact h1 i hi
      · intro i hi
        rcases List.mem_cons.1 hi with rfl | hi
        · exact le_of_lt hrq
        · rw [hsplit] at hi
          rcases List.mem_append.1 hi with hi1 | hi2
          · exact le_of_lt (h1 i hi1)
          · rcases List.mem_cons.1 hi2 with rfl | hi3
            · exact le_refl _
            · exact h2 i hi3

theorem lcSelect_spec (bs : List Backend) (hne : healthyIdx bs ≠ [])
    (hnn : ∀ i ∈ healthyIdx bs, 0 ≤ activeAt bs i) :
    ∃ r, lcSelect bs = some r ∧ r ∈ healthyIdx bs ∧
      (∀ j ∈ healthyIdx bs, activeAt bs r ≤ activeAt bs j) ∧
      (∀ j ∈ healthyIdx bs, j < r → activeAt bs r < activeAt bs j) := by
  obtain ⟨l1, r, l2, hsplit, hfold, h1, h2⟩ := lcFold_spec bs (healthyIdx bs) hne hnn
  refine ⟨r, ?_, ?_, h2, ?_⟩
  · unfold lcSelect
    rw [hfold]
  · rw [hsplit]
    exact List.mem_append.2 (Or.inr (by simp))
  · intro j hj hjr
    have hpw := healthyIdx_pairwise bs
    rw [hsplit] at hpw hj
    rw [List.pairwise_append] at hpw
    rcases List.mem_append.1 hj with hj1 | hj2
    · exact h1 j hj1
    · rcases List.mem_cons.1 hj2 with rfl | hj3
      · exact absurd hjr (lt_irrefl _)
      · have hrj : r < j := (List.pairwise_cons.1 hpw.2.1).1 j hj3
        omega

theorem lcFold_isSome (bs : List Backend) :
    ∀ (l : List Nat) (acc : Option Nat × Int), acc.1.isSome = true →
      ((l.foldl (lcStep bs) acc).1).isSome = true := by
  intro l
  induction l with
  | nil => intro acc h; exact h
  | cons p t ih =>
    intro acc h
    rw [List.foldl_cons]
    apply ih
    unfold lcStep
    split
    · rfl
    · exact h

theorem lcSelect_isSome (bs : List Backend) (hne : healthyIdx bs ≠ []) :
    (lcSelect bs).isSome = true := by
  unfold lcSelect
  cases hidx : healthyIdx bs with
  | nil => exact absurd hidx hne
  | cons q t =>
    rw [List.foldl_cons]
    apply lcFold_isSome
    rw [show lcStep bs (none, -1) q = (some q, activeAt bs q) from if_pos (Or.inl rfl)]
    rfl

theorem lcFold_mem (bs : List Backend) :
    ∀ (l : List Nat) (acc : Option Nat × Int) (r : Nat),
      (l.foldl (lcStep bs) acc).1 = some r → acc.1 = some r ∨ r ∈ l := by
  intro l
  induction l with
  | nil => intro acc r h; exact Or.inl h
  | cons p t ih =>
    intro acc r h
    rw [List.foldl_cons] at h
    rcases ih _ r h with hacc | hmem
    · by_cases hc : acc.2 = -1 ∨ activeAt bs p < acc.2
      · rw [show lcStep bs acc p = (some p, activeAt bs p) from if_pos hc] at hacc
        simp at hacc
        exact Or.inr (by simp [hacc])
      · rw [show lcStep bs acc p = acc from if_neg hc] at hacc
        exact Or.inl hacc
    · exact Or.inr (List.mem_cons_of_mem _ hmem)

theorem lcSelect_mem (bs : List Backend) (r : Nat) (h : lcSelect bs = some r) :
    r ∈ healthyIdx bs := by
  unfold lcSelect at h
  rcases lcFold_mem bs (healthyIdx bs) (none, -1) r h with hacc | hmem
  · simp at hacc
  · exact hmem

/-! ### Structure of getNextHealthyBackend and handleRequest -/

theorem tmod_natCast (a b : Nat) : Int.tmod (a : Int) (b : Int) = ((a % b : Nat) : Int) := rfl

theorem get?_eq_getD {l : List Nat} {n : Nat} (h : n < l.length) :
    l.get? n = some (l.getD n 0) := by
  rw [List.get?_eq_get h, List.getD_eq_get l 0 h]

theorem getNext_empty (s : ProxyState) (h : healthyIdx s.backends = []) :
    getNextHealthyBackend s = (.noBackend, s) := by
  unfold getNextHealthyBackend
  simp [h]

theorem getNext_lc (s : ProxyState) (hne : healthyIdx s.backends ≠ [])
    (hstrat : s.strategy = .least_connections) (i : Nat)
    (hsel : lcSelect s.backends = some i) :
    getNextHealthyBackend s = (.selected i, { s with backends := bumpAt s.backends i }) := by
  unfold getNextHealthyBackend
  have hie : (healthyIdx s.backends).isEmpty = false := by simp [List.isEmpty_iff, hne]
  simp [hie, hstrat, hsel]

theorem getNext_rr (s : ProxyState) (hne : healthyIdx s.backends ≠ [])
    (hstrat : s.strategy = .round_robin)
    (hof : rrAdvance s.counter < 2 ^ 63) :
    getNextHealthyBackend s =
      (.selected ((healthyIdx s.backends).getD
          (rrAdvance s.counter % (healthyIdx s.backends).length) 0),
        { s with counter := rrAdvance s.counter,
                 backends := bumpAt s.backends ((healthyIdx s.backends).getD
                   (rrAdvance s.counter % (healthyIdx s.backends).length) 0) }) := by
  have hie : (healthyIdx s.backends).isEmpty = false := by simp [List.isEmpty_iff, hne]
  have hK : 0 < (healthyIdx s.backends).length := List.length_pos.2 hne
  have h1 : toInt64 (rrAdvance s.counter) = ((rrAdvance s.counter : Nat) : Int) :=
    if_pos hof
  have h2 : rrIndex (rrAdvance s.counter) (healthyIdx s.backends).length =
      ((rrAdvance s.counter % (healthyIdx s.backends).length : Nat) : Int) := by
    unfold rrIndex
    rw [h1, tmod_natCast]
  have h5 : rrAdvance s.counter % (healthyIdx s.backends).length <
      (healthyIdx s.backends).length := Nat.mod_lt _ hK
  unfold getNextHealthyBackend
  simp only [hie, Bool.false_eq_true, if_false, hstrat]
  rw [if_neg (by decide : ¬ (LoadBalancingStrategy.round_robin = .least_connections))]
  rw [h2]
  rw [if_pos (Int.natCast_nonneg _)]
  rw [Int.toNat_natCast]
  rw [get?_eq_getD h5]

theorem getNext_rr_not_noBackend (s : ProxyState) (hne : healthyIdx s.backends ≠ [])
    (hstrat : s.strategy = .round_robin) :
    (getNextHealthyBackend s).1 ≠ .noBackend := by
  have hie : (healthyIdx s.backends).isEmpty = false := by simp [List.isEmpty_iff, hne]
  unfold getNextHealthyBackend
  simp only [hie, Bool.false_eq_true, if_false, hstrat]
  rw [if_neg (by decide : ¬ (LoadBalancingStrategy.round_robin = .least_connections))]
  split <;> simp

theorem getNext_noBackend_iff (s : ProxyState) :
    (getNextHealthyBackend s).1 = .noBackend ↔ healthyIdx s.backends = [] := by
  constructor
  · intro h
    by_contra hne
    by_cases hstrat : s.strategy = .least_connections
    · obtain ⟨i, hi⟩ := Option.isSome_iff_exists.1 (lcSelect_isSome s.backends hne)
      rw [getNext_lc s hne hstrat i hi] at h
      cases h
    · have hstratRR : s.strategy = .round_robin := by
        cases hs : s.strategy
        · rfl
        · exact absurd hs hstrat
      exact getNext_rr_not_noBackend s hne hstratRR h
  · intro h
    rw [getNext_empty s h]

theorem getNext_selected_spec (s : ProxyState) (i : Nat)
    (h : (getNextHealthyBackend s).1 = .selected i) :
    i ∈ healthyIdx s.backends ∧
    (getNextHealthyBackend s).2.backends = bumpAt s.backends i ∧
    (getNextHealthyBackend s).2.proxyActive = s.proxyActive ∧
    (getNextHealthyBackend s).2.strategy = s.strategy := by
  by_cases hie : healthyIdx s.backends = []
  · rw [getNext_empty s hie] at h
    cases h
  · by_cases hstrat : s.strategy = .least_connections
    · obtain ⟨j, hj⟩ := Option.isSome_iff_exists.1 (lcSelect_isSome s.backends hie)
      rw [getNext_lc s hie hstrat j hj] at h ⊢
      simp at h
      subst h
      exact ⟨lcSelect_mem s.backends j hj, rfl, rfl, rfl⟩
    · have hstratRR : s.strategy = .round_robin := by
        cases hs : s.strategy
        · rfl
        · exact absurd hs hstrat
      have hie2 : (healthyIdx s.backends).isEmpty = false := by
        simp [List.isEmpty_iff, hie]
      unfold getNextHealthyBackend at h ⊢
      simp only [hie2, Bool.false_eq_true, if_false, hstratRR] at h ⊢
      rw [if_neg (by decide : ¬ (LoadBalancingStrategy.round_robin = .least_connections))]
        at h ⊢
      by_cases hge : (0 : Int) ≤ rrIndex (rrAdvance s.counter) (healthyIdx s.backends).length
      · rw [if_pos hge] at h ⊢
        cases hm : (healthyIdx s.backends).get?
            (rrIndex (rrAdvance s.counter) (healthyIdx s.backends).length).toNat with
        | none =>
          rw [hm] at h
          simp at h
        | some j =>
          rw [hm] at h
          simp at h
          subst h
          exact ⟨List.get?_mem hm, rfl, rfl, rfl⟩
      · rw [if_neg hge] at h
        cases h

theorem handleRequest_eq_selected (s : ProxyState) (u : Bool) (i : Nat)
    (hact : s.proxyActive = true) (hsel : (getNextHealthyBackend s).1 = .selected i) :
    handleRequest s u =
      ((if u then .ok else .badGateway),
        { (getNextHealthyBackend s).2 with
            backends := dropAt (getNextHealthyBackend s).2.backends i }) := by
  unfold handleRequest
  rw [if_neg (by simp [hact])]
  rcases hg : getNextHealthyBackend s with ⟨r, s1⟩
  rw [hg] at hsel
  have hr : r = .selected i := hsel
  subst hr
  cases u <;> rfl

theorem handleRequest_paused (s : ProxyState) (u : Bool) (h : s.proxyActive = false) :
    handleRequest s u = (.serviceUnavailable, s) := by
  unfold handleRequest
  rw [if_pos (by simp [h])]

theorem runRequests_paused (s : ProxyState) (h : s.proxyActive = false) :
    ∀ us : List Bool,
      runRequests s us = (us.map (fun _ => HandleOutcome.serviceUnavailable), s) := by
  intro us
  induction us with
  | nil => rfl
  | cons u t ih =>
    simp [runRequests, handleRequest_paused s u h, ih]

/-! ### Round-robin runs and residue counting -/

theorem selRun_rr (N : Nat) :
    ∀ s : ProxyState, s.strategy = .round_robin →
      s.counter + N < 2 ^ 63 → healthyIdx s.backends ≠ [] →
      (selRun s N).1 = (List.range N).map
        (fun t => (healthyIdx s.backends).getD
          ((s.counter + 1 + t) % (healthyIdx s.backends).length) 0) ∧
      healthyIdx (selRun s N).2.backends = healthyIdx s.backends ∧
      (selRun s N).2.counter = s.counter + N ∧
      (selRun s N).2.strategy = s.strategy := by
  induction N with
  | zero =>
    intro s _ _ _
    exact ⟨by simp [selRun], rfl, rfl, rfl⟩
  | succ n ih =>
    intro s h1 h2 h3
    have hc1 : s.counter + 1 < 2 ^ 63 := by omega
    have hadv : rrAdvance s.counter = s.counter + 1 := by
      unfold rrAdvance UINT64SIZE
      have h64 : (2 : Nat) ^ 63 < 2 ^ 64 := by norm_num
      exact Nat.mod_eq_of_lt (by omega)
    have hof : rrAdvance s.counter < 2 ^ 63 := by rw [hadv]; omega
    have hstep := getNext_rr s h3 h1 hof
    set i0 := (healthyIdx s.backends).getD
      (rrAdvance s.counter % (healthyIdx s.backends).length) 0 with hi0
    set s1 : ProxyState := { s with counter := rrAdvance s.counter, backends := bumpAt s.backends i0 } with hs1
    have hs1b : healthyIdx s1.backends = healthyIdx s.backends := healthyIdx_bumpAt _ _
    have hs1strat : s1.strategy = .round_robin := h1
    have hs1c : s1.counter = s.counter + 1 := hadv
    have hs1of : s1.counter + n < 2 ^ 63 := by rw [hs1c]; omega
    have hs1ne : healthyIdx s1.backends ≠ [] := by rw [hs1b]; exact h3
    obtain ⟨ih1, ih2, ih3, ih4⟩ := ih s1 hs1strat hs1of hs1ne
    have hrun : selRun s (n + 1) = (i0 :: (selRun s1 n).1, (selRun s1 n).2) := by
      simp only [selRun]
      rw [hstep]
    refine ⟨?_, ?_, ?_, ?_⟩
    · rw [hrun]
      simp only []
      rw [ih1, hs1b, hs1c]
      rw [List.range_succ_eq_map, List.map_cons, List.map_map]
      congr 1
      · simp [hi0, hadv]
      · apply List.map_congr_left
        intro t _
        simp only [Function.comp]
        congr 2
        omega
    · rw [hrun]
      simp only []
      rw [ih2, hs1b]
    · rw [hrun]
      simp only []
      rw [ih3, hs1c]
      omega
    · rw [hrun]
      simp only []
      simp [ih4, hs1strat, h1]

theorem window_inj (c K N : Nat) (hNK : N ≤ K) :
    ∀ t1 ∈ List.range N, ∀ t2 ∈ List.range N,
      (c + t1) % K = (c + t2) % K → t1 = t2 := by
  intro t1 h1 t2 h2 heq
  rw [List.mem_range] at h1 h2
  have hmod : t1 % K = t2 % K := Nat.ModEq.add_left_cancel' c heq
  rwa [Nat.mod_eq_of_lt (by omega), Nat.mod_eq_of_lt (by omega)] at hmod

theorem window_nodup (c K N : Nat) (hNK : N ≤ K) :
    ((List.range N).map (fun t => (c + t) % K)).Nodup :=
  List.Nodup.map_on (window_inj c K N hNK) (List.nodup_range N)

theorem window_mem (c K m : Nat) (hK : 0 < K) (hm : m < K) :
    m ∈ (List.range K).map (fun t => (c + t) % K) := by
  rw [List.mem_map]
  refine ⟨(K + m - c % K) % K, List.mem_range.2 (Nat.mod_lt _ hK), ?_⟩
  have hd : c % K < K := Nat.mod_lt c hK
  have hcong : c + (K + m - c % K) % K ≡ c % K + (K + m - c % K) [MOD K] :=
    Nat.ModEq.add (Nat.mod_modEq c K).symm (Nat.mod_modEq _ K)
  have h2 : c % K + (K + m - c % K) = K + m := Nat.add_sub_cancel' (by omega)
  have h3 : (c + (K + m - c % K) % K) % K = (c % K + (K + m - c % K)) % K := hcong
  rw [h3, h2, Nat.add_mod_left, Nat.mod_eq_of_lt hm]

theorem window_count_one (c K m : Nat) (hK : 0 < K) (hm : m < K) :
    ((List.range K).map (fun t => (c + t) % K)).count m = 1 :=
  List.count_eq_one_of_mem (window_nodup c K K le_rfl) (window_mem c K m hK hm)

theorem resid_count_bounds (K : Nat) (hK : 0 < K) (m : Nat) (hm : m < K) (c : Nat)
    (N : Nat) :
    N / K ≤ ((List.range N).map (fun t => (c + t) % K)).count m ∧
    ((List.range N).map (fun t => (c + t) % K)).count m ≤ (N + K - 1) / K := by
  induction N using Nat.strong_induction_on with
  | _ N ihN =>
    by_cases hNK : N < K
    · constructor
      · rw [Nat.div_eq_of_lt hNK]
        exact Nat.zero_le _
      · have hle1 : ((List.range N).map (fun t => (c + t) % K)).count m ≤ 1 :=
          List.nodup_iff_count_le_one.1 (window_nodup c K N (le_of_lt hNK)) m
        rcases Nat.eq_zero_or_pos N with rfl | hNpos
        · simp
        · have hone : 1 ≤ (N + K - 1) / K := (Nat.one_le_div_iff hK).2 (by omega)
          omega
    · push_neg at hNK
      have hNKlt : N - K < N := by omega
      obtain ⟨ih1, ih2⟩ := ihN (N - K) hNKlt
      have hsplit : List.range N = List.range K ++ (List.range (N - K)).map (K + ·) := by
        rw [← List.range_add]
        congr 1
        omega
      have hmap2 : (((List.range (N - K)).map (K + ·)).map (fun t => (c + t) % K)) =
          (List.range (N - K)).map (fun t => (c + t) % K) := by
        rw [List.map_map]
        apply List.map_congr_left
        intro t _
        simp only [Function.comp]
        have harg : c + (K + t) = c + t + K := by omega
        rw [harg, Nat.add_mod_right]
      have hcount : ((List.range N).map (fun t => (c + t) % K)).count m =
          1 + ((List.range (N - K)).map (fun t => (c + t) % K)).count m := by
        rw [hsplit, List.map_append, List.count_append, window_count_one c K m hK hm,
          hmap2]
      have hdiv1 : N / K = (N - K) / K + 1 := Nat.div_eq_sub_div hK hNK
      have hdiv2 : (N + K - 1) / K = (N - K + K - 1) / K + 1 := by
        rw [Nat.div_eq_sub_div hK (show K ≤ N + K - 1 by omega)]
        have harg : N + K - 1 - K = N - K + K - 1 := by omega
        rw [harg]
      constructor
      · rw [hcount, hdiv1]
        omega
      · rw [hcount, hdiv2]
        omega

theorem count_map_getD (idxs : List Nat) (hnd : idxs.Nodup) (N : Nat)
    (resid : Nat → Nat) (hresid : ∀ t, resid t < idxs.length)
    (m : Nat) (hm : m < idxs.length) :
    ((List.range N).map (fun t => idxs.getD (resid t) 0)).count (idxs.getD m 0) =
    ((List.range N).map resid).count m := by
  rw [List.count_eq_countP, List.count_eq_countP, List.countP_map, List.countP_map]
  apply List.countP_congr
  intro t _
  simp only [Function.comp]
  rw [beq_iff_eq, beq_iff_eq]
  constructor
  · intro h
    have h1 := hresid t
    rw [List.getD_eq_get _ _ h1, List.getD_eq_get _ _ hm] at h
    have hfin := (List.Nodup.get_inj_iff hnd).1 h
    exact congrArg Fin.val hfin
  · intro h
    rw [h]

/-! ### The stop loop -/

theorem stopLoop_notFound (nm : String) (killOk : Bool) :
    ∀ bs : List Backend,
      (∀ j c, bs.get? j = some c → ¬ (c.name = nm ∧ c.cmd.isSome = true)) →
      stopLoop bs nm killOk = (.notFound, bs) := by
  intro bs
  induction bs with
  | nil => intro _; rfl
  | cons b t ih =>
    intro h
    have hb := h 0 b rfl
    unfold stopLoop
    rw [if_neg hb, ih (fun j c hj => h (j + 1) c hj)]

theorem stopLoop_found (nm : String) :
    ∀ (bs : List Backend) (i : Nat) (b : Backend),
      bs.get? i = some b →
      (b.name = nm ∧ b.cmd.isSome = true) →
      (∀ j, j < i → ∀ c, bs.get? j = some c → ¬ (c.name = nm ∧ c.cmd.isSome = true)) →
      stopLoop bs nm true =
        (.stopped, modifyAt bs i (fun c => { c with healthy := false })) := by
  intro bs
  induction bs with
  | nil =>
    intro i b hget
    cases i <;> cases hget
  | cons b0 t ih =>
    intro i b hget hmatch hfirst
    cases i with
    | zero =>
      injection hget with hb
      subst hb
      unfold stopLoop
      rw [if_pos hmatch]
      rfl
    | succ n =>
      have hb0 := hfirst 0 (Nat.succ_pos n) b0 rfl
      unfold stopLoop
      rw [if_neg hb0,
        ih n b hget hmatch (fun j hj c hc => hfirst (j + 1) (by omega) c hc)]
      rfl

/-! ### The claims -/

/-- Claim C1: for every request that passes the pause gate and for which a
backend is selected, the selected backend's activeRequests is incremented
once at selection (int64 add) and decremented exactly once on every exit
path of the handler (upstream success and bad-gateway failure alike), so
after the request it equals its pre-selection value, the other counters are
untouched, and the invariant that every counter is non-negative (and in the
int64 range) is preserved. -/
theorem C1_active_request_roundtrip (s : ProxyState) (u : Bool) (i : Nat)
    (hact : s.proxyActive = true)
    (hsel : (getNextHealthyBackend s).1 = .selected i)
    (hinv : ∀ b ∈ s.backends, 0 ≤ b.activeRequests ∧ b.activeRequests < 2 ^ 63) :
    activeAt (getNextHealthyBackend s).2.backends i =
      int64Wrap (activeAt s.backends i + 1) ∧
    activeAt (handleRequest s u).2.backends i = activeAt s.backends i ∧
    (∀ j, j ≠ i → activeAt (handleRequest s u).2.backends j = activeAt s.backends j) ∧
    (∀ b ∈ (handleRequest s u).2.backends,
      0 ≤ b.activeRequests ∧ b.activeRequests < 2 ^ 63) := by
  obtain ⟨hmem, hback, _, _⟩ := getNext_selected_spec s i hsel
  have hlen : i < s.backends.length := mem_healthyIdx_lt hmem
  have hreq := handleRequest_eq_selected s u i hact hsel
  have hval : activeAt s.backends i = (s.backends.get ⟨i, hlen⟩).activeRequests := by
    unfold activeAt
    rw [List.get?_eq_get hlen]
  have hrange : -(2 ^ 63) ≤ activeAt s.backends i ∧ activeAt s.backends i < 2 ^ 63 := by
    obtain ⟨hx, hy⟩ := hinv _ (List.get_mem s.backends i hlen)
    rw [hval]
    exact ⟨by omega, hy⟩
  refine ⟨?_, ?_, ?_, ?_⟩
  · rw [hback]
    exact activeAt_bumpAt_self s.backends i hlen
  · rw [hreq]
    simp only []
    rw [hback]
    exact activeAt_drop_bump_self s.backends i hrange.1 hrange.2
  · intro j hj
    rw [hreq]
    simp only []
    rw [hback]
    exact activeAt_drop_bump_ne s.backends i j hj
  · rw [hreq]
    simp only []
    rw [hback]
    exact range_drop_bump s.backends i hinv

/-- Witness for C1 at a concrete one-backend least-connections state. -/
theorem C1_active_request_roundtrip_witness :
    activeAt (getNextHealthyBackend sLC1).2.backends 0 =
      int64Wrap (activeAt sLC1.backends 0 + 1) ∧
    activeAt (handleRequest sLC1 false).2.backends 0 = activeAt sLC1.backends 0 ∧
    (∀ j, j ≠ 0 →
      activeAt (handleRequest sLC1 false).2.backends j = activeAt sLC1.backends j) ∧
    (∀ b ∈ (handleRequest sLC1 false).2.backends,
      0 ≤ b.activeRequests ∧ b.activeRequests < 2 ^ 63) :=
  C1_active_request_roundtrip sLC1 false 0 (by decide) (by decide) (by decide)

/-- Claim C2: while the gate is false every forward attempt returns
service-unavailable with the state (all counters and the round-robin
cursor) untouched, for every request in a row; pause only clears the gate
and resume restores it. -/
theorem C2_pause_gate_frame (s t : ProxyState) (us : List Bool)
    (hoff : s.proxyActive = false) :
    runRequests s us = (us.map (fun _ => HandleOutcome.serviceUnavailable), s) ∧
    (handleProxyPause t).proxyActive = false ∧
    (handleProxyPause t).backends = t.backends ∧
    (handleProxyPause t).counter = t.counter ∧
    (handleProxyPause t).strategy = t.strategy ∧
    (handleProxyResume (handleProxyPause t)).proxyActive = true :=
  ⟨runRequests_paused s hoff us, rfl, rfl, rfl, rfl, rfl⟩

/-- Witness for C2 at a concrete paused state and two requests. -/
theorem C2_pause_gate_frame_witness :
    runRequests sPaused [true, false] =
      ([true, false].map (fun _ => HandleOutcome.serviceUnavailable), sPaused) ∧
    (handleProxyPause sRR2).proxyActive = false ∧
    (handleProxyPause sRR2).backends = sRR2.backends ∧
    (handleProxyPause sRR2).counter = sRR2.counter ∧
    (handleProxyPause sRR2).strategy = sRR2.strategy ∧
    (handleProxyResume (handleProxyPause sRR2)).proxyActive = true :=
  C2_pause_gate_frame sPaused sRR2 [true, false] (by decide)

/-- Claim C3: under least_connections, over a non-empty healthy set with
non-negative counters the selection returns a healthy backend whose
activeRequests is minimal over the healthy set, ties broken by the earliest
position in configuration order, and the winner's counter is incremented by
the same selection step - an int64 add, so the new value is
int64Wrap (old + 1), which equals old + 1 whenever old + 1 stays below
2 ^ 63. -/
theorem C3_least_connections_minimum (s : ProxyState)
    (hstrat : s.strategy = .least_connections)
    (hne : healthyIdx s.backends ≠ [])
    (hnn : ∀ b ∈ s.backends, 0 ≤ b.activeRequests) :
    ∃ i, (getNextHealthyBackend s).1 = .selected i ∧
      healthyAt s.backends i = true ∧
      (∀ j ∈ healthyIdx s.backends, activeAt s.backends i ≤ activeAt s.backends j) ∧
      (∀ j ∈ healthyIdx s.backends, j < i →
        activeAt s.backends i < activeAt s.backends j) ∧
      activeAt (getNextHealthyBackend s).2.backends i =
        int64Wrap (activeAt s.backends i + 1) ∧
      (activeAt s.backends i + 1 < 2 ^ 63 →
        activeAt (getNextHealthyBackend s).2.backends i =
          activeAt s.backends i + 1) := by
  have hnn2 : ∀ j ∈ healthyIdx s.backends, 0 ≤ activeAt s.backends j := by
    intro j hj
    have hlt := mem_healthyIdx_lt hj
    unfold activeAt
    rw [List.get?_eq_get hlt]
    exact hnn _ (List.get_mem _ _ _)
  obtain ⟨r, hsel, hmem, hmin, htie⟩ := lcSelect_spec s.backends hne hnn2
  have hg := getNext_lc s hne hstrat r hsel
  refine ⟨r, by rw [hg], mem_healthyIdx.1 hmem, hmin, htie, ?_, ?_⟩
  · rw [hg]
    simp only []
    exact activeAt_bumpAt_self s.backends r (mem_healthyIdx_lt hmem)
  · intro hlt
    rw [hg]
    simp only []
    rw [activeAt_bumpAt_self s.backends r (mem_healthyIdx_lt hmem)]
    have hr0 := hnn2 r hmem
    exact int64Wrap_eq_self (by omega) hlt

/-- Witness for C3 at a three-backend state with a tie at the minimum. -/
theorem C3_least_connections_minimum_witness :
    ∃ i, (getNextHealthyBackend sLC3).1 = .selected i ∧
      healthyAt sLC3.backends i = true ∧
      (∀ j ∈ healthyIdx sLC3.backends,
        activeAt sLC3.backends i ≤ activeAt sLC3.backends j) ∧
      (∀ j ∈ healthyIdx sLC3.backends, j < i →
        activeAt sLC3.backends i < activeAt sLC3.backends j) ∧
      activeAt (getNextHealthyBackend sLC3).2.backends i =
        int64Wrap (activeAt sLC3.backends i + 1) ∧
      (activeAt sLC3.backends i + 1 < 2 ^ 63 →
        activeAt (getNextHealthyBackend sLC3).2.backends i =
          activeAt sLC3.backends i + 1) :=
  C3_least_connections_minimum sLC3 (by decide) (by decide) (by decide)

/-- Claim C4 (amended): under round_robin against a fixed healthy set of
size K, N consecutive selections select each healthy backend at least
floor(N/K) and at most ceil(N/K) times, provided every advanced cursor
value of the run stays below 2 ^ 63 (no int64 sign overflow of the cast
uint64 cursor). -/
theorem C4_round_robin_fairness (s : ProxyState) (N j : Nat)
    (hstrat : s.strategy = .round_robin)
    (hof : s.counter + N < 2 ^ 63)
    (hne : healthyIdx s.backends ≠ [])
    (hj : j ∈ healthyIdx s.backends) :
    N / (healthyIdx s.backends).length ≤ (selRun s N).1.count j ∧
    (selRun s N).1.count j ≤
      (N + (healthyIdx s.backends).length - 1) / (healthyIdx s.backends).length := by
  obtain ⟨h1, _, _, _⟩ := selRun_rr N s hstrat hof hne
  have hK : 0 < (healthyIdx s.backends).length := List.length_pos.2 hne
  obtain ⟨⟨m, hm⟩, hget⟩ := List.mem_iff_get.1 hj
  have hjload : (healthyIdx s.backends).getD m 0 = j := by
    rw [List.getD_eq_get _ _ hm, hget]
  rw [h1, ← hjload]
  rw [count_map_getD (healthyIdx s.backends) (healthyIdx_nodup s.backends) N
    (fun t => (s.counter + 1 + t) % (healthyIdx s.backends).length)
    (fun t => Nat.mod_lt _ hK) m hm]
  exact resid_count_bounds (healthyIdx s.backends).length hK m hm (s.counter + 1) N

/-- Witness for C4: five selections against two healthy backends. -/
theorem C4_round_robin_fairness_witness :
    5 / (healthyIdx sRR2.backends).length ≤ (selRun sRR2 5).1.count 0 ∧
    (selRun sRR2 5).1.count 0 ≤
      (5 + (healthyIdx sRR2.backends).length - 1) /
        (healthyIdx sRR2.backends).length :=
  C4_round_robin_fairness sRR2 5 0 (by decide) (by decide) (by decide) (by decide)

/-- Counterexample to C4 as stated: starting at cursor 2 ^ 63 - 1 with a
fixed healthy set of two backends, two consecutive selections select
backend 1 zero times, below floor(2/2) = 1 - the second call computes a
negative index and faults instead of selecting. -/
theorem C4_round_robin_fairness_cex :
    1 ∈ healthyIdx sOverflowA.backends ∧
    (selRun sOverflowA 2).1.count 1 = 0 ∧
    2 / (healthyIdx sOverflowA.backends).length = 1 := by decide

/-- Claim C5: selection returns nil exactly when the healthy set is empty,
every selected backend has healthy = true, and with an empty healthy set
the request handler answers service-unavailable leaving the whole state
(counters, cursor) untouched. -/
theorem C5_selection_healthy_only (s : ProxyState) (u : Bool) :
    ((getNextHealthyBackend s).1 = .noBackend ↔ healthyIdx s.backends = []) ∧
    (∀ i, (getNextHealthyBackend s).1 = .selected i →
      healthyAt s.backends i = true) ∧
    (s.proxyActive = true → healthyIdx s.backends = [] →
      handleRequest s u = (.serviceUnavailable, s)) := by
  refine ⟨getNext_noBackend_iff s, ?_, ?_⟩
  · intro i hi
    exact mem_healthyIdx.1 (getNext_selected_spec s i hi).1
  · intro hact hempty
    unfold handleRequest
    rw [if_neg (by simp [hact]), getNext_empty s hempty]

/-- Witness for C5 at a state whose only backend is unhealthy. -/
theorem C5_selection_healthy_only_witness :
    handleRequest sNoHealthy true = (.serviceUnavailable, sNoHealthy) :=
  (C5_selection_healthy_only sNoHealthy true).2.2 (by decide) (by decide)

/-- Claim C6 (amended): stop kills the first backend matching the name with
an attached handle, clears its healthy flag immediately (it leaves the
healthy set at once, without waiting for a probe) and leaves every other
backend untouched - but the process handle stays attached rather than being
detached; not-found is reported exactly when no backend carries the given
name with an attached handle (unknown name or never started), so a backend
stopped once keeps its handle and a repeated stop succeeds again instead of
reporting not-found. -/
theorem C6_stop_backend (s : ProxyState) (nm : String) (hnm : nm ≠ "") :
    ((∀ j c, s.backends.get? j = some c → ¬ (c.name = nm ∧ c.cmd.isSome = true)) →
      handleStopBackend s nm true = (.notFound, s)) ∧
    (∀ i b, s.backends.get? i = some b →
      (b.name = nm ∧ b.cmd.isSome = true) →
      (∀ j, j < i → ∀ c, s.backends.get? j = some c →
        ¬ (c.name = nm ∧ c.cmd.isSome = true)) →
      (handleStopBackend s nm true).1 = .stopped ∧
      healthyAt (handleStopBackend s nm true).2.backends i = false ∧
      i ∉ healthyIdx (handleStopBackend s nm true).2.backends ∧
      ((handleStopBackend s nm true).2.backends.get? i).map Backend.cmd =
        some b.cmd ∧
      (∀ j, j ≠ i → (handleStopBackend s nm true).2.backends.get? j =
        s.backends.get? j)) := by
  constructor
  · intro h
    unfold handleStopBackend
    rw [if_neg hnm, stopLoop_notFound nm true s.backends h]
  · intro i b hget hmatch hfirst
    have hstop := stopLoop_found nm s.backends i b hget hmatch hfirst
    have hmain : handleStopBackend s nm true = (.stopped, { s with backends := modifyAt s.backends i (fun c => { c with healthy := false }) }) := by
      unfold handleStopBackend
      rw [if_neg hnm, hstop]
    refine ⟨by rw [hmain], ?_, ?_, ?_, ?_⟩
    · rw [hmain]
      simp only []
      unfold healthyAt
      rw [get?_modifyAt_self, hget]
      rfl
    · rw [hmain]
      simp only []
      intro hmem
      have hh := mem_healthyIdx.1 hmem
      unfold healthyAt at hh
      rw [get?_modifyAt_self, hget] at hh
      simp at hh
    · rw [hmain]
      simp only []
      rw [get?_modifyAt_self, hget]
      rfl
    · intro j hj
      rw [hmain]
      simp only []
      exact get?_modifyAt_ne s.backends i j _ hj

/-- Witness for C6 at a one-backend state with an attached handle. -/
theorem C6_stop_backend_witness :
    (handleStopBackend sStop "a" true).1 = .stopped ∧
    healthyAt (handleStopBackend sStop "a" true).2.backends 0 = false ∧
    0 ∉ healthyIdx (handleStopBackend sStop "a" true).2.backends ∧
    ((handleStopBackend sStop "a" true).2.backends.get? 0).map Backend.cmd =
      some bA.cmd ∧
    (∀ j, j ≠ 0 → (handleStopBackend sStop "a" true).2.backends.get? j =
      sStop.backends.get? j) :=
  (C6_stop_backend sStop "a" (by decide)).2 0 bA (by decide) (by decide)
    (fun j hj _ _ => absurd hj (Nat.not_lt_zero j))

/-- Counterexample to C6 as stated: a successful stop leaves the process
handle attached (cmd still some, not detached to none), and a second stop
of the already-stopped backend reports success again, not not-found. -/
theorem C6_stop_backend_cex :
    ((handleStopBackend sStop "a" true).2.backends.get? 0).map Backend.cmd =
      some (some ()) ∧
    (handleStopBackend (handleStopBackend sStop "a" true).2 "a" true).1 =
      .stopped ∧
    StopResult.stopped ≠ StopResult.notFound := by decide

/-- Claim C7 (amended): when spawning the process fails the failure is
logged, the backend is left with its handle unchanged (None if it was never
started), no automatic retry happens and the proxy keeps running so the
start can be retried through the control surface; but when the build of the
missing runnable artifact fails, log.Fatalf terminates the whole proxy
process, not only that backend's startup. -/
theorem C7_start_spawn_failure (b : Backend) (env : StartEnv)
    (hbuild : env.binaryExists = true ∨ env.buildOk = true) :
    (env.spawnOk = false → startBackend b env = (.spawnFailed, b)) ∧
    (env.spawnOk = true →
      startBackend b env = (.started, { b with cmd := some () })) := by
  have hnb : ¬ (env.binaryExists = false ∧ env.buildOk = false) := by
    rcases hbuild with h | h <;> simp [h]
  constructor
  · intro hs
    unfold startBackend
    rw [if_neg hnb, if_pos hs]
  · intro hs
    unfold startBackend
    rw [if_neg hnb, if_neg (by simp [hs])]

/-- Witness for C7: spawn failure with the artifact present leaves the
backend exactly as it was. -/
theorem C7_start_spawn_failure_witness :
    startBackend bPlain ⟨true, true, false⟩ = (.spawnFailed, bPlain) :=
  (C7_start_spawn_failure bPlain ⟨true, true, false⟩ (Or.inl rfl)).1 rfl

/-- Counterexample to C7 as stated: a build failure with the artifact
missing yields the fatal-exit outcome (log.Fatalf terminates the whole
proxy process), not the backend-local spawn failure the claim describes. -/
theorem C7_start_spawn_failure_cex :
    startBackend bPlain ⟨false, false, true⟩ = (.fatalExit, bPlain) ∧
    StartOutcome.fatalExit ≠ StartOutcome.spawnFailed := by decide

/-- Claim C8: one health probe sets healthy to the probe outcome
unconditionally (a single probe flips the state, no retry or hysteresis),
updates lastSeen only on success, leaves the other fields alone, and logs
exactly when the previous healthy value differs from the new one
(edge-triggered). -/
theorem C8_health_probe_step (b : Backend) (connectOk : Bool) (now : Nat) :
    (healthMonitorStep b connectOk now).1.healthy = connectOk ∧
    (healthMonitorStep b connectOk now).1.lastSeen =
      (if connectOk then now else b.lastSeen) ∧
    (healthMonitorStep b connectOk now).2 = (b.healthy != connectOk) ∧
    (healthMonitorStep b connectOk now).1.name = b.name ∧
    (healthMonitorStep b connectOk now).1.cmd = b.cmd ∧
    (healthMonitorStep b connectOk now).1.activeRequests = b.activeRequests := by
  cases connectOk <;> cases hb : b.healthy <;> simp [healthMonitorStep, hb]

/-- Claim C10: loading the strategy file never fails the process (the
embedded loader is total over all read outcomes: open error, decode error,
any decoded string); every failure or unrecognized value leaves the current
strategy - round_robin at startup - unchanged, and only the two recognized
strings ever change it. -/
theorem C10_load_strategy_safe (cur : LoadBalancingStrategy) (inp : LoadInput) :
    loadStrategy cur .openErr = cur ∧
    loadStrategy cur .decodeErr = cur ∧
    loadStrategy cur (.value "round_robin") = .round_robin ∧
    loadStrategy cur (.value "least_connections") = .least_connections ∧
    (∀ str, str ≠ "round_robin" → str ≠ "least_connections" →
      loadStrategy cur (.value str) = cur) ∧
    (loadStrategy cur inp = cur ∨ loadStrategy cur inp = .round_robin ∨
      loadStrategy cur inp = .least_connections) := by
  refine ⟨rfl, rfl, by simp [loadStrategy], by simp [loadStrategy], ?_, ?_⟩
  · intro str h1 h2
    simp [loadStrategy, h1, h2]
  · cases inp with
    | openErr => exact Or.inl rfl
    | decodeErr => exact Or.inl rfl
    | value str =>
      by_cases h1 : str = "round_robin"
      · simp [loadStrategy, h1]
      · by_cases h2 : str = "least_connections"
        · simp [loadStrategy, h1, h2]
        · simp [loadStrategy, h1, h2]

/-- Witness for C10: an unrecognized strategy string leaves the default
round_robin in place. -/
theorem C10_load_strategy_safe_witness :
    loadStrategy LoadBalancingStrategy.round_robin (.value "garbage") =
      LoadBalancingStrategy.round_robin :=
  (C10_load_strategy_safe .round_robin (.value "garbage")).2.2.2.2.1 "garbage"
    (by decide) (by decide)

/-- Claim C9 (amended): for every cursor whose advanced value stays below
2 ^ 63 (the int64-positive range) and every non-empty healthy set, the
index computed by advancing the cursor and reducing it modulo the
healthy-set size is within bounds, and round-robin selection returns a
member of the healthy set. -/
theorem C9_rr_index_in_bounds (s : ProxyState)
    (hstrat : s.strategy = .round_robin)
    (hne : healthyIdx s.backends ≠ [])
    (hof : rrAdvance s.counter < 2 ^ 63) :
    0 ≤ rrIndex (rrAdvance s.counter) (healthyIdx s.backends).length ∧
    rrIndex (rrAdvance s.counter) (healthyIdx s.backends).length <
      ((healthyIdx s.backends).length : Int) ∧
    ∃ i, i ∈ healthyIdx s.backends ∧ (getNextHealthyBackend s).1 = .selected i := by
  have hK : 0 < (healthyIdx s.backends).length := List.length_pos.2 hne
  have h1 : toInt64 (rrAdvance s.counter) = ((rrAdvance s.counter : Nat) : Int) :=
    if_pos hof
  have h2 : rrIndex (rrAdvance s.counter) (healthyIdx s.backends).length =
      ((rrAdvance s.counter % (healthyIdx s.backends).length : Nat) : Int) := by
    unfold rrIndex
    rw [h1, tmod_natCast]
  have hm : rrAdvance s.counter % (healthyIdx s.backends).length <
      (healthyIdx s.backends).length := Nat.mod_lt _ hK
  refine ⟨?_, ?_, ?_⟩
  · rw [h2]
    exact Int.natCast_nonneg _
  · rw [h2]
    exact_mod_cast hm
  · have hg := getNext_rr s hne hstrat hof
    refine ⟨(healthyIdx s.backends).getD
      (rrAdvance s.counter % (healthyIdx s.backends).length) 0, ?_, by rw [hg]⟩
    rw [List.getD_eq_get _ _ hm]
    exact List.get_mem _ _ _

/-- Witness for C9 at two healthy backends with the cursor at 0. -/
theorem C9_rr_index_in_bounds_witness :
    0 ≤ rrIndex (rrAdvance sRR2.counter) (healthyIdx sRR2.backends).length ∧
    rrIndex (rrAdvance sRR2.counter) (healthyIdx sRR2.backends).length <
      ((healthyIdx sRR2.backends).length : Int) ∧
    ∃ i, i ∈ healthyIdx sRR2.backends ∧
      (getNextHealthyBackend sRR2).1 = .selected i :=
  C9_rr_index_in_bounds sRR2 (by decide) (by decide) (by decide)

/-- Counterexample to C9 as stated: at cursor 2 ^ 63 with two healthy
backends, the advanced cursor reinterpreted as int64 is negative, the Go
truncated remainder gives index -1 - outside the bounds of the healthy
set - and selection faults instead of returning a backend. -/
theorem C9_rr_index_in_bounds_cex :
    rrIndex (rrAdvance sOverflowB.counter)
      (healthyIdx sOverflowB.backends).length = -1 ∧
    ¬ 0 ≤ rrIndex (rrAdvance sOverflowB.counter)
      (healthyIdx sOverflowB.backends).length ∧
    (getNextHealthyBackend sOverflowB).1 = .outOfRange := by decide
